import Mathlib

/-!
Verification of the violin-intonation pitch-tracking core against its
natural-language specification.

The development shallowly embeds the JavaScript source modules:

- the temporal stabilizer (the polling callback in the app module),
- the YIN pitch detector (yin.js),
- the amplitude analyser and pitch-tracking engine (pitch module),
- the automatic gain controller (autogain module),
- the note mapper (note module).

Machine floating-point numbers are idealised as rationals (every JS float
is a rational) where the code only uses field operations and comparisons,
and as reals where the code uses sqrt, exp or log2.  Nullable values
become Option.  JS truthiness and the truncated remainder operator are
modelled explicitly where they matter and noted in comments.
-/

namespace ViolinIntonation

/-! ## Temporal stabilizer

Embedding of the polling callback installed by startPolling in the app
module.  The mutable module-level variables missCounter,
lastDetectionTime and lastFrequency become an explicit state record; one
timer tick becomes a step function from a state, the tick timestamp and
the frequency carried by the tracker reading to a new state plus an
observable event describing which branch of the callback ran.
-/

def MIN_VALID_FREQ : ℚ := 110

def MAX_VALID_FREQ : ℚ := 1660

def MAX_JUMP_HZ : ℚ := 160

def MAX_GAP_MS : ℚ := 200

def MISS_THRESHOLD : Nat := 4

structure StabState where
  missCounter : Nat
  lastDetectionTime : ℚ
  lastFrequency : Option ℚ
  deriving DecidableEq

/-- Initial values of the module-level variables: missCounter = 0,
lastDetectionTime = 0, lastFrequency = null. -/
def initialStabState : StabState := ⟨0, 0, none⟩

/-- Observable outcome of one poll tick.  miss and lostLock come from the
no-pitch branch (lostLock is the tick that calls resetReadouts),
dropNonpositive is the silent return on frequency less or equal zero,
jumpRejected is the discard inside the jump gate, and accepted records
the clamped frequency written to lastFrequency. -/
inductive StabEvent where
  | miss
  | lostLock
  | dropNonpositive
  | jumpRejected
  | accepted (frequency : ℚ)
  deriving DecidableEq

/-- Miss branch of the callback: missCounter is incremented and the
readouts are cleared exactly when the new counter equals MISS_THRESHOLD. -/
def stabMiss (s : StabState) : StabState × StabEvent :=
  let mc := s.missCounter + 1
  (⟨mc, s.lastDetectionTime, s.lastFrequency⟩,
   if mc = MISS_THRESHOLD then StabEvent.lostLock else StabEvent.miss)

/-- Acceptance tail of the callback: the miss counter was already zeroed,
lastDetectionTime and lastFrequency are overwritten and the note datum is
emitted downstream. -/
def stabAccept (timestamp frequency : ℚ) : StabState × StabEvent :=
  (⟨0, timestamp, some frequency⟩, StabEvent.accepted frequency)

/-- One tick of the polling callback.  The argument freq is the frequency
field of the tracker reading; none models both a null reading and a null
frequency field.  JS truthiness makes a frequency of exactly 0 fall into
the miss branch as well; non-finite frequencies are excluded by the
rational idealisation.  Note that the source zeroes missCounter before
the nonpositive check and before the jump gate. -/
def stabStep (s : StabState) (timestamp : ℚ) (freq : Option ℚ) :
    StabState × StabEvent :=
  match freq with
  | none => stabMiss s
  | some f =>
    if f = 0 then
      stabMiss s
    else if f ≤ 0 then
      (⟨0, s.lastDetectionTime, s.lastFrequency⟩, StabEvent.dropNonpositive)
    else
      -- clamp into the valid range, then run the jump gate
      let frequency := min (max f MIN_VALID_FREQ) MAX_VALID_FREQ
      match s.lastFrequency with
      | some lf =>
        if s.lastDetectionTime ≠ 0 ∧ timestamp - s.lastDetectionTime < MAX_GAP_MS then
          if |frequency - lf| > MAX_JUMP_HZ then
            (⟨0, s.lastDetectionTime, s.lastFrequency⟩, StabEvent.jumpRejected)
          else
            stabAccept timestamp frequency
        else
          stabAccept timestamp frequency
      | none => stabAccept timestamp frequency

/-- Iterate the callback over a run of consecutive null readings,
collecting the emitted events.  The miss branch never reads the
timestamp, so the ticks are driven with timestamp 0. -/
def runNulls (s : StabState) : Nat → StabState × List StabEvent
  | 0 => (s, [])
  | n + 1 =>
    let step := stabStep s 0 none
    let rest := runNulls step.1 n
    (rest.1, step.2 :: rest.2)

/-! ## YIN pitch detector

Embedding of yin.js.  The sample buffer is a function from indices to
rationals (the detector reads indices below 2 * halfBuffer), H is the
halfBuffer field, and the difference and cumulative-mean-normalized
difference arrays become functions of the lag.  The two source loops with
early exit (threshold scan and local-minimum descent) become fuelled
recursions; the fuel given at the call sites is enough for the loops to
run to their natural exit, which the lemmas below make precise.
-/

/-- Step 1 of yin.js: difference function d, with d 0 = 0. -/
def difference (buf : Nat → ℚ) (H : Nat) (tau : Nat) : ℚ :=
  if tau = 0 then 0
  else ∑ i ∈ Finset.range H, (buf i - buf (i + tau)) * (buf i - buf (i + tau))

/-- Running sum of the difference values d 1 + ... + d tau maintained by
the step-2 loop. -/
def runningSum (d : Nat → ℚ) (tau : Nat) : ℚ := ∑ t ∈ Finset.Icc 1 tau, d t

/-- Step 2 of yin.js: cumulative mean normalized difference.  The source
writes cmnd tau = d tau * tau / runningSum when the running sum is
nonzero and 1 otherwise; cmnd 0 = 1. -/
def cumulativeMean (d : Nat → ℚ) (tau : Nat) : ℚ :=
  if tau = 0 then 1
  else if runningSum d tau = 0 then 1
  else d tau * tau / runningSum d tau

/-- Inner while loop of step 3: starting from a candidate tau, advance
while the next cmnd value is strictly smaller, staying below H.  The fuel
argument bounds the number of iterations. -/
def descend (cmnd : Nat → ℚ) (H : Nat) : Nat → Nat → Nat
  | tau, 0 => tau
  | tau, fuel + 1 =>
    if tau + 1 < H ∧ cmnd (tau + 1) < cmnd tau then descend cmnd H (tau + 1) fuel
    else tau

/-- Outer for loop of step 3: scan tau upward below H for the first cmnd
value below the threshold, then descend to the local minimum.  none
models the -1 returned when the scan is exhausted. -/
def scanTau (cmnd : Nat → ℚ) (threshold : ℚ) (H : Nat) : Nat → Nat → Option Nat
  | _, 0 => none
  | tau, fuel + 1 =>
    if tau < H then
      if cmnd tau < threshold then some (descend cmnd H tau (H - (tau + 1)))
      else scanTau cmnd threshold H (tau + 1) fuel
    else none

/-- Step 3 of yin.js: the scan starts at tau = 2. -/
def absoluteThreshold (cmnd : Nat → ℚ) (threshold : ℚ) (H : Nat) : Option Nat :=
  scanTau cmnd threshold H 2 H

/-- Step 4 of yin.js: parabolic refinement of the integer lag, skipped at
the buffer edges.  The source falls back to the integer tau when the
refined value is not finite, which over the rationals happens exactly
when the denominator vanishes. -/
def parabolicInterpolation (cmnd : Nat → ℚ) (H : Nat) (tau : Nat) : ℚ :=
  if tau < 1 ∨ H ≤ tau + 1 then (tau : ℚ)
  else
    let s0 := cmnd (tau - 1)
    let s1 := cmnd tau
    let s2 := cmnd (tau + 1)
    if 2 * (2 * s1 - s2 - s0) = 0 then (tau : ℚ)
    else (tau : ℚ) + (s2 - s0) / (2 * (2 * s1 - s2 - s0))

structure PitchEstimate where
  frequency : ℚ
  probability : ℚ
  deriving DecidableEq

/-- The cmnd array computed by getPitch for a given buffer. -/
def yinCmnd (buf : Nat → ℚ) (H : Nat) : Nat → ℚ :=
  cumulativeMean (difference buf H)

/-- getPitch of yin.js: threshold search, parabolic refinement, frequency
sampleRate / betterTau, confidence 1 - cmnd tau at the integer tau, and
the hard probability-threshold rejection. -/
def yinGetPitch (sampleRate threshold probabilityThreshold : ℚ) (H : Nat)
    (buf : Nat → ℚ) : Option PitchEstimate :=
  match absoluteThreshold (yinCmnd buf H) threshold H with
  | none => none
  | some tau =>
    let betterTau := parabolicInterpolation (yinCmnd buf H) H tau
    let frequency := sampleRate / betterTau
    let probability := 1 - yinCmnd buf H tau
    if probability < probabilityThreshold then none
    else some ⟨frequency, probability⟩


/-! ## Amplitude analyser and pitch tracking engine

Embedding of the analysis path of the pitch module.  The audio-graph
setup, microphone lifecycle and debug logging are external collaborators;
the embedded core is one call of getPitch on an active session: amplitude
analysis, the AGC update, the RMS silence gate and the estimator.  The
single source loop accumulating the squared-sample sum and the running
peak becomes one fold over the frame.
-/

/-- Loop body of the amplitude analyser: accumulates the sum of squared
samples and the running peak magnitude over the frame. -/
def ampScan (buf : List ℚ) : ℚ × ℚ :=
  buf.foldl
    (fun acc sample =>
      (acc.1 + sample * sample, if |sample| > acc.2 then |sample| else acc.2))
    (0, 0)

/-- The analyseAmplitude method: rms = sqrt of the mean squared sample
(a real number), peak = the running peak magnitude (a rational). -/
noncomputable def analyseAmplitude (buf : List ℚ) : ℝ × ℚ :=
  (Real.sqrt (((ampScan buf).1 : ℝ) / (buf.length : ℝ)), (ampScan buf).2)

/-! ## Automatic gain controller

Embedding of the autogain module.  The update method takes the frame RMS
measurement; the JS isFinite guard is modelled by an Option argument
(none is a non-finite measurement).  The gain-node slewing is an audio
graph effect outside the embedded state.
-/

structure AgcConfig where
  targetRms : ℝ
  smoothingTime : ℝ
  minGain : ℝ
  maxGain : ℝ
  gainSlew : ℝ
  epsilon : ℝ

structure AgcState where
  smoothedRms : Option ℝ
  currentGain : ℝ
  lastUpdateTime : Option ℝ

structure AgcOutput where
  smoothedRms : ℝ
  gain : ℝ

/-- Constructor state of the controller: smoothedRms and lastUpdateTime
start as null and the gain starts at 1. -/
def agcInit : AgcState := ⟨none, 1, none⟩

/-- The private clamp helper: min maxGain (max minGain value). -/
def agcClamp (cfg : AgcConfig) (value : ℝ) : ℝ :=
  min cfg.maxGain (max cfg.minGain value)

/-- The update method.  A non-finite rms (argument none) returns the last
known smoothed RMS (0 when still null, following the JS nullish
coalescing) and gain without touching the state.  Otherwise the smoothed
RMS is seeded on first call and exponentially smoothed afterwards with
alpha = 1 - exp(-dt / smoothingTime), alpha = 1 when dt = 0, and the gain
is the clamped ratio targetRms / (smoothedRms + epsilon). -/
noncomputable def agcUpdate (cfg : AgcConfig) (s : AgcState) (rms : Option ℝ)
    (now : ℝ) : AgcState × AgcOutput :=
  match rms with
  | none => (s, ⟨s.smoothedRms.getD 0, s.currentGain⟩)
  | some r =>
    let smoothed :=
      match s.smoothedRms with
      | none => r
      | some prev =>
        let dt := match s.lastUpdateTime with
          | none => 0
          | some t => max 0 (now - t)
        let alpha := if 0 < dt then 1 - Real.exp (-dt / cfg.smoothingTime) else 1
        (1 - alpha) * prev + alpha * r
    let desiredGain := agcClamp cfg (cfg.targetRms / (smoothed + cfg.epsilon))
    (⟨some smoothed, desiredGain, some now⟩, ⟨smoothed, desiredGain⟩)

/-! ## Pitch tracking engine -/

structure TrackerConfig where
  sampleRate : ℚ
  yinThreshold : ℚ
  probabilityThreshold : ℚ
  rmsThreshold : ℝ
  agc : AgcConfig

/-- One per-frame reading emitted by the engine, as consumed by the
stabilizer: frequency (null on the silence gate and on estimator
rejection), probability, and the amplitude and gain diagnostics. -/
structure TrackerReading where
  frequency : Option ℚ
  probability : ℚ
  rms : ℝ
  peak : ℚ
  smoothedRms : ℝ
  gain : ℝ

open Classical in
/-- The analysis path of getPitch in the pitch module for one frame of an
active session: analyse the amplitude, feed the rms into the AGC, gate on
rms < rmsThreshold before running YIN, otherwise run YIN on the frame
with halfBuffer = length / 2.  The Bool in the result records whether the
estimator was invoked (true exactly on the non-gated path), mirroring the
control flow of the source. -/
noncomputable def trackerGetPitch (cfg : TrackerConfig) (agcState : AgcState)
    (buf : List ℚ) (now : ℝ) : TrackerReading × AgcState × Bool :=
  let amp := analyseAmplitude buf
  let agcStep := agcUpdate cfg.agc agcState (some amp.1) now
  if amp.1 < cfg.rmsThreshold then
    (⟨none, 0, amp.1, amp.2, agcStep.2.smoothedRms, agcStep.2.gain⟩, agcStep.1, false)
  else
    match yinGetPitch cfg.sampleRate cfg.yinThreshold cfg.probabilityThreshold
        (buf.length / 2) (fun i => buf.getD i 0) with
    | none =>
      (⟨none, 0, amp.1, amp.2, agcStep.2.smoothedRms, agcStep.2.gain⟩, agcStep.1, true)
    | some est =>
      (⟨some est.frequency, est.probability, amp.1, amp.2,
        agcStep.2.smoothedRms, agcStep.2.gain⟩, agcStep.1, true)

/-! ## Note mapper

Embedding of frequencyToNoteData in the note module.  JS Math.round
rounds half toward positive infinity, which is exactly Mathlib round
(floor of x + 1/2); the JS remainder operator on integers is the
truncated remainder Int.tmod.  Math.log2 becomes Real.logb 2.
-/

def NOTE_NAMES : List String :=
  ["C", "C#", "D", "D#"] ++ ["E", "F", "F#", "G"] ++ ["G#", "A", "A#", "B"]

/-- The real midi value 69 + 12 * log2(frequency / 440). -/
noncomputable def midiOf (frequency : ℝ) : ℝ :=
  69 + 12 * Real.logb 2 (frequency / 440)

/-- nearestMidi = Math.round(midi). -/
noncomputable def nearestMidi (frequency : ℝ) : ℤ :=
  round (midiOf frequency)

/-- The note index computed by the source: (nearestMidi + 1200) % 12 with
the JS truncated remainder. -/
noncomputable def noteIndex (frequency : ℝ) : ℤ :=
  (nearestMidi frequency + 1200).tmod 12

/-- Modelled from the spec (for the refinement comparison in C4): the
index formula ((nearestMidi % 12) + 12) % 12 stated in the specification,
read with the JS truncated remainder. -/
def specNoteIndexFormula (nearest : ℤ) : ℤ :=
  ((nearest.tmod 12) + 12).tmod 12

structure NoteData where
  frequency : ℝ
  midi : ℝ
  nearestMidi : ℤ
  noteIndex : ℤ
  octave : ℤ
  cents : ℝ
  equalFrequency : ℝ
  noteName : Option String

/-- frequencyToNoteData of the note module.  The JS falsiness guard
rejects nonpositive input (NaN is outside the real idealisation).  The
octave uses Math.floor of the real quotient.  Indexing NOTE_NAMES out of
range yields undefined in JS, modelled as none. -/
noncomputable def frequencyToNoteData (frequency : ℝ) : Option NoteData :=
  if frequency ≤ 0 then none
  else
    let nearest := nearestMidi frequency
    let idx := (nearest + 1200).tmod 12
    let octave := ⌊(nearest : ℝ) / 12⌋ - 1
    let equalFrequency := (440 : ℝ) * (2 : ℝ) ^ (((nearest : ℝ) - 69) / 12)
    some
      { frequency := frequency
        midi := midiOf frequency
        nearestMidi := nearest
        noteIndex := idx
        octave := octave
        cents := 1200 * Real.logb 2 (frequency / equalFrequency)
        equalFrequency := equalFrequency
        noteName :=
          if 0 ≤ idx ∧ idx < 12 then some (NOTE_NAMES.getD idx.toNat "") else none }

/-! ## Concrete inputs used by the witnesses -/

/-- A period-two alternating eight-sample frame (for the tracker and YIN
witnesses). -/
def altBufList : List ℚ := [1, -1, 1, -1, 1, -1, 1, -1]

/-- The same frame as an index function, exactly as the tracker hands it
to the detector (indices past the end read 0, never reached below the
half-buffer bound). -/
def altBuf : Nat → ℚ := fun i => altBufList.getD i 0

/-- The AGC options used by the pitch module (targetRms 0.2,
smoothingTime 0.6, minGain 0.5, maxGain 200, gainSlew 0.1,
epsilon 1e-6). -/
noncomputable def agcDefaults : AgcConfig :=
  ⟨1/5, 3/5, 1/2, 200, 1/10, 1/1000000⟩

/-- A tracker configuration with the source default thresholds
(yinThreshold 0.1, probabilityThreshold 0.15, rmsThreshold 0.01) at an
880 Hz sample rate for the eight-sample witness frame. -/
noncomputable def trackerWitnessConfig : TrackerConfig :=
  ⟨880, 1/10, 3/20, 1/100, agcDefaults⟩


theorem stabStep_none (s : StabState) (t : ℚ) : stabStep s t none = stabMiss s := rfl

theorem runNulls_events (s : StabState) (n : Nat) :
    (runNulls s n).2 = (List.range n).map
      (fun k => if s.missCounter + k + 1 = MISS_THRESHOLD
                then StabEvent.lostLock else StabEvent.miss) := by
  induction n generalizing s with
  | zero => rfl
  | succ n ih =>
    rw [List.range_succ_eq_map]
    simp only [runNulls, stabStep_none, stabMiss, List.map_cons, List.map_map,
      List.cons.injEq]
    constructor
    · simp
    · rw [ih]
      apply List.map_congr_left
      intro k _
      simp only [Function.comp_apply]
      have heq : s.missCounter + 1 + k + 1 = s.missCounter + (k + 1) + 1 := by omega
      rw [heq]

theorem lostLock_count (mc : Nat) (n : Nat) :
    ((List.range n).map
      (fun k => if mc + k + 1 = MISS_THRESHOLD
                then StabEvent.lostLock else StabEvent.miss)).count StabEvent.lostLock
      = if mc < MISS_THRESHOLD ∧ MISS_THRESHOLD ≤ mc + n then 1 else 0 := by
  induction n with
  | zero =>
    simp only [List.range_zero, List.map_nil, List.count_nil, Nat.add_zero]
    split_ifs with h
    · omega
    · rfl
  | succ n ih =>
    have hc : ([if mc + n + 1 = MISS_THRESHOLD then StabEvent.lostLock
        else StabEvent.miss].count StabEvent.lostLock) =
        if mc + n + 1 = MISS_THRESHOLD then 1 else 0 := by
      split_ifs <;> rfl
    rw [List.range_succ, List.map_append, List.count_append, ih]
    simp only [List.map_cons, List.map_nil]
    rw [hc]
    unfold MISS_THRESHOLD
    split_ifs <;> omega

/-- C6: during a run of consecutive null-frequency readings starting with
a zeroed miss counter, the lost-lock signal (the tick that clears the
readouts) fires exactly on the fourth consecutive miss, and on no other
tick of the run; in particular it fires exactly once whenever the run is
at least four ticks long and never fires again on later misses of the
same run. -/
theorem c6_lostLock_once (s : StabState) (n : Nat) (h : s.missCounter = 0) :
    (runNulls s n).2 = (List.range n).map
      (fun k => if k = 3 then StabEvent.lostLock else StabEvent.miss) ∧
    (runNulls s n).2.count StabEvent.lostLock = if 4 ≤ n then 1 else 0 := by
  have hev := runNulls_events s n
  rw [h] at hev
  constructor
  · rw [hev]
    apply List.map_congr_left
    intro k _
    have hk : 0 + k + 1 = MISS_THRESHOLD ↔ k = 3 := by unfold MISS_THRESHOLD; omega
    simp only [hk]
  · rw [hev, lostLock_count]
    have : (0 < MISS_THRESHOLD ∧ MISS_THRESHOLD ≤ 0 + n) ↔ 4 ≤ n := by
      unfold MISS_THRESHOLD; omega
    simp only [this]

/-- Witness for C6 at a concrete five-tick run: misses on ticks one to
three, lost lock exactly on tick four, a plain miss again on tick five. -/
theorem c6_lostLock_once_witness :
    initialStabState.missCounter = 0 ∧
    (runNulls initialStabState 5).2 =
      [StabEvent.miss, StabEvent.miss, StabEvent.miss,
       StabEvent.lostLock, StabEvent.miss] ∧
    (runNulls initialStabState 5).2.count StabEvent.lostLock = 1 := by
  have h := c6_lostLock_once initialStabState 5 rfl
  refine ⟨rfl, ?_, ?_⟩
  · rw [h.1]; rfl
  · rw [h.2]; rfl

theorem stabStep_jumpRejected (s : StabState) (t f lf : ℚ)
    (hlf : s.lastFrequency = some lf)
    (ht0 : s.lastDetectionTime ≠ 0)
    (hgap : t - s.lastDetectionTime < MAX_GAP_MS)
    (hf0 : f ≠ 0) (hfpos : ¬ f ≤ 0)
    (hjump : MAX_JUMP_HZ < |min (max f MIN_VALID_FREQ) MAX_VALID_FREQ - lf|) :
    stabStep s t (some f) =
      (⟨0, s.lastDetectionTime, s.lastFrequency⟩, StabEvent.jumpRejected) := by
  simp only [stabStep, hlf]
  rw [if_neg hf0, if_neg hfpos, if_pos ⟨ht0, hgap⟩, if_pos hjump]

theorem stabStep_accept_of_guard_off (s : StabState) (t f : ℚ)
    (hf0 : f ≠ 0) (hfpos : ¬ f ≤ 0)
    (hguard : ¬ (s.lastDetectionTime ≠ 0 ∧ t - s.lastDetectionTime < MAX_GAP_MS)) :
    stabStep s t (some f) =
      stabAccept t (min (max f MIN_VALID_FREQ) MAX_VALID_FREQ) := by
  cases hsf : s.lastFrequency with
  | none => simp only [stabStep, hsf, if_neg hf0, if_neg hfpos]
  | some lf => simp only [stabStep, hsf, if_neg hf0, if_neg hfpos, if_neg hguard]

/-- C1 (amended): a poll tick whose numeric reading is discarded by the
jump-rejection gate leaves lastAcceptedFrequency and
lastAcceptedTimestamp unchanged and does not increment missCounter, but
it does reset missCounter to zero: the source zeroes the counter as soon
as the reading carries a finite nonzero frequency, before the jump gate
runs. -/
theorem c1_jumpRejected_frame (s : StabState) (t f lf : ℚ)
    (hlf : s.lastFrequency = some lf)
    (ht0 : s.lastDetectionTime ≠ 0)
    (hgap : t - s.lastDetectionTime < MAX_GAP_MS)
    (hf : 0 < f)
    (hjump : MAX_JUMP_HZ < |min (max f MIN_VALID_FREQ) MAX_VALID_FREQ - lf|) :
    (stabStep s t (some f)).2 = StabEvent.jumpRejected ∧
    (stabStep s t (some f)).1.lastFrequency = s.lastFrequency ∧
    (stabStep s t (some f)).1.lastDetectionTime = s.lastDetectionTime ∧
    (stabStep s t (some f)).1.missCounter = 0 := by
  rw [stabStep_jumpRejected s t f lf hlf ht0 hgap (ne_of_gt hf) (not_le.mpr hf) hjump]
  exact ⟨rfl, rfl, rfl, rfl⟩

/-- Witness for C1 at a concrete jump-rejected tick: previous acceptance
of 440 Hz at t = 10, reading of 700 Hz at t = 60 (gap 50 ms, jump
260 Hz). -/
theorem c1_jumpRejected_frame_witness :
    (stabStep ⟨2, 10, some 440⟩ 60 (some 700)).2 = StabEvent.jumpRejected ∧
    (stabStep ⟨2, 10, some 440⟩ 60 (some 700)).1.lastFrequency = some 440 ∧
    (stabStep ⟨2, 10, some 440⟩ 60 (some 700)).1.lastDetectionTime = 10 ∧
    (stabStep ⟨2, 10, some 440⟩ 60 (some 700)).1.missCounter = 0 := by
  have h := c1_jumpRejected_frame ⟨2, 10, some 440⟩ 60 700 440 rfl
    (by norm_num) (by norm_num [MAX_GAP_MS]) (by norm_num)
    (by norm_num [abs, min_def, max_def, MIN_VALID_FREQ, MAX_VALID_FREQ, MAX_JUMP_HZ])
  exact h

/-- Counterexample to C1 as stated: with missCounter = 2 carried over
from two earlier misses, a jump-rejected tick (previous acceptance 440 Hz
at t = 1, reading 700 Hz at t = 51) resets missCounter to 0, because the
source zeroes the counter before the jump gate runs; the claim says the
counter is neither reset nor incremented.  lastFrequency and
lastDetectionTime are indeed left unchanged. -/
theorem c1_counterexample :
    (stabStep ⟨2, 1, some 440⟩ 51 (some 700)).2 = StabEvent.jumpRejected ∧
    (stabStep ⟨2, 1, some 440⟩ 51 (some 700)).1.missCounter = 0 ∧
    (stabStep ⟨2, 1, some 440⟩ 51 (some 700)).1.missCounter ≠ 2 := by
  have h : stabStep ⟨2, 1, some 440⟩ 51 (some 700) =
      (⟨0, 1, some 440⟩, StabEvent.jumpRejected) := by
    simp only [stabStep, stabMiss, stabAccept]
    norm_num [min_def, max_def, abs, MIN_VALID_FREQ, MAX_VALID_FREQ, MAX_JUMP_HZ, MAX_GAP_MS]
  rw [h]
  exact ⟨rfl, rfl, by norm_num⟩

/-- C2 (amended): whenever the state records a previous accepted reading
with a nonzero acceptance timestamp, a numeric reading arriving less than
MAX_GAP_MS later whose clamped frequency differs from the last accepted
frequency by more than MAX_JUMP_HZ is discarded, and a reading arriving
more than MAX_GAP_MS after the last acceptance is accepted with the jump
check bypassed; in particular, with a prior accepted frequency of 440 Hz
at t = 1 ms, a 700 Hz reading at t = 51 ms is discarded and the same
700 Hz reading at t = 301 ms is accepted.  (The claimed instance with the
prior acceptance at exactly t = 0 fails, because the source uses the zero
timestamp as the no-previous-detection sentinel.) -/
theorem c2_jump_gate :
    (∀ (s : StabState) (t f lf : ℚ), s.lastFrequency = some lf →
        s.lastDetectionTime ≠ 0 → t - s.lastDetectionTime < MAX_GAP_MS →
        0 < f → MAX_JUMP_HZ < |min (max f MIN_VALID_FREQ) MAX_VALID_FREQ - lf| →
        (stabStep s t (some f)).2 = StabEvent.jumpRejected) ∧
    (∀ (s : StabState) (t f : ℚ), 0 < f → MAX_GAP_MS < t - s.lastDetectionTime →
        stabStep s t (some f) =
          stabAccept t (min (max f MIN_VALID_FREQ) MAX_VALID_FREQ)) ∧
    stabStep ⟨0, 1, some 440⟩ 51 (some 700) =
      (⟨0, 1, some 440⟩, StabEvent.jumpRejected) ∧
    stabStep ⟨0, 1, some 440⟩ 301 (some 700) =
      (⟨0, 301, some 700⟩, StabEvent.accepted 700) := by
  refine ⟨?_, ?_, ?_, ?_⟩
  · intro s t f lf hlf ht0 hgap hf hjump
    rw [stabStep_jumpRejected s t f lf hlf ht0 hgap (ne_of_gt hf) (not_le.mpr hf) hjump]
  · intro s t f hf hgap
    exact stabStep_accept_of_guard_off s t f (ne_of_gt hf) (not_le.mpr hf)
      (fun hc => absurd hc.2 (not_lt.mpr (le_of_lt hgap)))
  · simp only [stabStep, stabMiss, stabAccept]
    norm_num [min_def, max_def, abs, MIN_VALID_FREQ, MAX_VALID_FREQ, MAX_JUMP_HZ, MAX_GAP_MS]
  · simp only [stabStep, stabMiss, stabAccept]
    norm_num [min_def, max_def, abs, MIN_VALID_FREQ, MAX_VALID_FREQ, MAX_JUMP_HZ, MAX_GAP_MS]

/-- Witness for C2 applying the discard branch at a concrete input:
previous acceptance 440 Hz at t = 1, reading 700 Hz at t = 51. -/
theorem c2_jump_gate_witness :
    (stabStep ⟨0, 1, some 440⟩ 51 (some 700)).2 = StabEvent.jumpRejected := by
  exact c2_jump_gate.1 ⟨0, 1, some 440⟩ 51 700 440 rfl (by norm_num)
    (by norm_num [MAX_GAP_MS]) (by norm_num)
    (by norm_num [abs, min_def, max_def, MIN_VALID_FREQ, MAX_VALID_FREQ, MAX_JUMP_HZ])

/-- Counterexample to C2 as stated: a 440 Hz reading accepted at
timestamp exactly 0 leaves lastDetectionTime = 0, which the source cannot
distinguish from its no-previous-detection sentinel; the subsequent
700 Hz reading at t = 50 ms (gap 50 ms below MAX_GAP_MS, jump 260 Hz
above MAX_JUMP_HZ) is therefore accepted, while the claim says it is
discarded. -/
theorem c2_counterexample :
    stabStep initialStabState 0 (some 440) =
      (⟨0, 0, some 440⟩, StabEvent.accepted 440) ∧
    stabStep ⟨0, 0, some 440⟩ 50 (some 700) =
      (⟨0, 50, some 700⟩, StabEvent.accepted 700) := by
  constructor
  · simp only [initialStabState, stabStep, stabMiss, stabAccept]
    norm_num [min_def, max_def, abs, MIN_VALID_FREQ, MAX_VALID_FREQ, MAX_JUMP_HZ, MAX_GAP_MS]
  · simp only [stabStep, stabMiss, stabAccept]
    norm_num [min_def, max_def, abs, MIN_VALID_FREQ, MAX_VALID_FREQ, MAX_JUMP_HZ, MAX_GAP_MS]


theorem cumulativeMean_one (d : Nat → ℚ) : cumulativeMean d 1 = 1 := by
  unfold cumulativeMean runningSum
  rw [if_neg one_ne_zero]
  rw [Finset.Icc_self, Finset.sum_singleton]
  split_ifs with h
  · rfl
  · rw [Nat.cast_one, mul_one, div_self h]

theorem descend_ge (cmnd : Nat → ℚ) (H : Nat) (tau fuel : Nat) :
    tau ≤ descend cmnd H tau fuel := by
  induction fuel generalizing tau with
  | zero => exact le_refl tau
  | succ fuel ih =>
    simp only [descend]
    split_ifs with hcond
    · exact le_trans (Nat.le_succ tau) (ih (tau + 1))
    · exact le_refl tau

theorem descend_lt (cmnd : Nat → ℚ) (H : Nat) (tau fuel : Nat) (h : tau < H) :
    descend cmnd H tau fuel < H := by
  induction fuel generalizing tau with
  | zero => exact h
  | succ fuel ih =>
    simp only [descend]
    split_ifs with hcond
    · exact ih (tau + 1) hcond.1
    · exact h

theorem descend_cmnd_le (cmnd : Nat → ℚ) (H : Nat) (tau fuel : Nat) :
    cmnd (descend cmnd H tau fuel) ≤ cmnd tau := by
  induction fuel generalizing tau with
  | zero => exact le_refl _
  | succ fuel ih =>
    simp only [descend]
    split_ifs with hcond
    · exact le_trans (ih (tau + 1)) (le_of_lt hcond.2)
    · exact le_refl _

theorem descend_step_eq (cmnd : Nat → ℚ) (H : Nat) (tau fuel : Nat)
    (hcond : tau + 1 < H ∧ cmnd (tau + 1) < cmnd tau) :
    descend cmnd H tau (fuel + 1) = descend cmnd H (tau + 1) fuel := by
  simp only [descend, if_pos hcond]

theorem descend_stop_eq (cmnd : Nat → ℚ) (H : Nat) (tau fuel : Nat)
    (hcond : ¬ (tau + 1 < H ∧ cmnd (tau + 1) < cmnd tau)) :
    descend cmnd H tau (fuel + 1) = tau := by
  simp only [descend, if_neg hcond]

theorem descend_stop (cmnd : Nat → ℚ) (H : Nat) (tau fuel : Nat)
    (hfuel : H ≤ tau + 1 + fuel)
    (hlt : descend cmnd H tau fuel + 1 < H) :
    cmnd (descend cmnd H tau fuel) ≤ cmnd (descend cmnd H tau fuel + 1) := by
  induction fuel generalizing tau with
  | zero => simp only [descend] at hlt; omega
  | succ fuel ih =>
    by_cases hcond : tau + 1 < H ∧ cmnd (tau + 1) < cmnd tau
    · rw [descend_step_eq cmnd H tau fuel hcond] at hlt ⊢
      exact ih (tau + 1) (by omega) hlt
    · rw [descend_stop_eq cmnd H tau fuel hcond] at hlt ⊢
      exact le_of_not_lt (fun hx => hcond ⟨hlt, hx⟩)

theorem descend_prev (cmnd : Nat → ℚ) (H : Nat) (tau fuel : Nat)
    (h : tau < descend cmnd H tau fuel) :
    cmnd (descend cmnd H tau fuel) < cmnd (descend cmnd H tau fuel - 1) := by
  induction fuel generalizing tau with
  | zero => simp only [descend] at h; omega
  | succ fuel ih =>
    by_cases hcond : tau + 1 < H ∧ cmnd (tau + 1) < cmnd tau
    · rw [descend_step_eq cmnd H tau fuel hcond] at h ⊢
      by_cases h2 : tau + 1 < descend cmnd H (tau + 1) fuel
      · exact ih (tau + 1) h2
      · have hge := descend_ge cmnd H (tau + 1) fuel
        have heq : descend cmnd H (tau + 1) fuel = tau + 1 := by omega
        rw [heq]
        simpa using hcond.2
    · rw [descend_stop_eq cmnd H tau fuel hcond] at h
      omega

theorem scanTau_some (cmnd : Nat → ℚ) (threshold : ℚ) (H : Nat) (tau fuel r : Nat)
    (h : scanTau cmnd threshold H tau fuel = some r) :
    ∃ tau0, tau ≤ tau0 ∧ tau0 < H ∧ cmnd tau0 < threshold ∧
      (∀ t, tau ≤ t → t < tau0 → ¬ cmnd t < threshold) ∧
      r = descend cmnd H tau0 (H - (tau0 + 1)) := by
  induction fuel generalizing tau with
  | zero => exact absurd h (by simp [scanTau])
  | succ fuel ih =>
    simp only [scanTau] at h
    by_cases h1 : tau < H
    · rw [if_pos h1] at h
      by_cases h2 : cmnd tau < threshold
      · rw [if_pos h2] at h
        exact ⟨tau, le_rfl, h1, h2, fun t ht1 ht2 => absurd (lt_of_le_of_lt ht1 ht2)
          (lt_irrefl tau), (Option.some.inj h).symm⟩
      · rw [if_neg h2] at h
        obtain ⟨tau0, ha, hb, hc, hd, he⟩ := ih (tau + 1) h
        refine ⟨tau0, by omega, hb, hc, ?_, he⟩
        intro t ht1 ht2
        by_cases ht : t = tau
        · rw [ht]; exact h2
        · exact hd t (by omega) ht2
    · rw [if_neg h1] at h
      exact absurd h (by simp)

theorem absoluteThreshold_some (cmnd : Nat → ℚ) (threshold : ℚ) (H : Nat) (r : Nat)
    (hthr : threshold ≤ 1) (hc1 : cmnd 1 = 1)
    (h : absoluteThreshold cmnd threshold H = some r) :
    2 ≤ r ∧ r < H ∧ cmnd r < threshold ∧
      (r + 1 < H → cmnd r ≤ cmnd (r + 1)) ∧
      cmnd r < cmnd (r - 1) := by
  obtain ⟨tau0, h2le, hlt, hthr0, hmin, hr⟩ :=
    scanTau_some cmnd threshold H 2 H r h
  have hge := descend_ge cmnd H tau0 (H - (tau0 + 1))
  have hlt2 := descend_lt cmnd H tau0 (H - (tau0 + 1)) hlt
  have hcle := descend_cmnd_le cmnd H tau0 (H - (tau0 + 1))
  subst hr
  refine ⟨by omega, hlt2, lt_of_le_of_lt hcle hthr0, ?_, ?_⟩
  · intro hrlt
    exact descend_stop cmnd H tau0 (H - (tau0 + 1)) (by omega) hrlt
  · by_cases hmove : tau0 < descend cmnd H tau0 (H - (tau0 + 1))
    · exact descend_prev cmnd H tau0 (H - (tau0 + 1)) hmove
    · have heq : descend cmnd H tau0 (H - (tau0 + 1)) = tau0 := by omega
      rw [heq]
      rcases Nat.eq_or_lt_of_le h2le with h2eq | h2lt
    -- at the first candidate: its predecessor is either cmnd 1 = 1 or a
    -- scanned value that stayed at or above the threshold
      · rw [← h2eq]
        have : cmnd (2 - 1) = 1 := hc1
        rw [this]
        calc cmnd 2 < threshold := h2eq ▸ hthr0
          _ ≤ 1 := hthr
      · have hpred := hmin (tau0 - 1) (by omega) (by omega)
        have : threshold ≤ cmnd (tau0 - 1) := le_of_not_lt hpred
        exact lt_of_lt_of_le hthr0 this

theorem parabolicInterpolation_ge (cmnd : Nat → ℚ) (H : Nat) (tau : Nat)
    (h2 : 2 ≤ tau)
    (hup : tau + 1 < H → cmnd tau ≤ cmnd (tau + 1))
    (hdown : cmnd tau < cmnd (tau - 1)) :
    (3 : ℚ)/2 ≤ parabolicInterpolation cmnd H tau := by
  have htau : (2 : ℚ) ≤ (tau : ℚ) := by exact_mod_cast h2
  unfold parabolicInterpolation
  by_cases hedge : tau < 1 ∨ H ≤ tau + 1
  · rw [if_pos hedge]
    linarith
  · rw [if_neg hedge]
    push_neg at hedge
    have hup2 := hup (by omega)
    have ha : 0 < cmnd (tau - 1) - cmnd tau := by linarith
    have hb : 0 ≤ cmnd (tau + 1) - cmnd tau := by linarith
    have hden : 2 * (2 * cmnd tau - cmnd (tau + 1) - cmnd (tau - 1)) < 0 := by linarith
    simp only
    rw [if_neg (ne_of_lt hden)]
    have hkey : -(1/2 : ℚ) ≤ (cmnd (tau + 1) - cmnd (tau - 1)) /
        (2 * (2 * cmnd tau - cmnd (tau + 1) - cmnd (tau - 1))) := by
      rw [le_div_iff_of_neg hden]
      ring_nf
      nlinarith
    linarith

theorem yin_some_inv (sampleRate threshold probabilityThreshold : ℚ) (H : Nat)
    (buf : Nat → ℚ) (est : PitchEstimate)
    (h : yinGetPitch sampleRate threshold probabilityThreshold H buf = some est) :
    ∃ tau, absoluteThreshold (yinCmnd buf H) threshold H = some tau ∧
      est.frequency = sampleRate / parabolicInterpolation (yinCmnd buf H) H tau ∧
      est.probability = 1 - yinCmnd buf H tau ∧
      ¬ (1 - yinCmnd buf H tau < probabilityThreshold) := by
  unfold yinGetPitch at h
  cases habs : absoluteThreshold (yinCmnd buf H) threshold H with
  | none => rw [habs] at h; exact absurd h (by simp)
  | some tau =>
    rw [habs] at h
    simp only at h
    by_cases hp : 1 - yinCmnd buf H tau < probabilityThreshold
    · rw [if_pos hp] at h; exact absurd h (by simp)
    · rw [if_neg hp] at h
      have he := Option.some.inj h
      exact ⟨tau, rfl, by rw [← he], by rw [← he], hp⟩

/-- C3: whenever the YIN estimator (run with a positive sample rate and a
stability threshold at most 1, as in every configuration of this program)
returns a pitch estimate, the refined lag betterTau is at least 3/2, so
the frequency sampleRate / betterTau is strictly positive, and finite in
the sense that the denominator is bounded away from zero. -/
theorem c3_frequency_pos (sampleRate threshold probabilityThreshold : ℚ)
    (H : Nat) (buf : Nat → ℚ) (est : PitchEstimate)
    (hsr : 0 < sampleRate) (hthr : threshold ≤ 1)
    (h : yinGetPitch sampleRate threshold probabilityThreshold H buf = some est) :
    0 < est.frequency ∧
    ∃ tau, absoluteThreshold (yinCmnd buf H) threshold H = some tau ∧
      (3 : ℚ)/2 ≤ parabolicInterpolation (yinCmnd buf H) H tau ∧
      est.frequency = sampleRate / parabolicInterpolation (yinCmnd buf H) H tau := by
  obtain ⟨tau, habs, hfreq, _, _⟩ :=
    yin_some_inv sampleRate threshold probabilityThreshold H buf est h
  have hc1 : yinCmnd buf H 1 = 1 := cumulativeMean_one _
  obtain ⟨h2, hH, hthr0, hup, hdown⟩ :=
    absoluteThreshold_some (yinCmnd buf H) threshold H tau hthr hc1 habs
  have hbt := parabolicInterpolation_ge (yinCmnd buf H) H tau h2 hup hdown
  have hpos : 0 < parabolicInterpolation (yinCmnd buf H) H tau :=
    lt_of_lt_of_le (by norm_num) hbt
  exact ⟨by rw [hfreq]; exact div_pos hsr hpos, tau, habs, hbt, hfreq⟩

theorem difference_altBuf_one : difference altBuf 4 1 = 16 := by
  unfold difference altBuf altBufList
  norm_num [Finset.sum_range_succ, List.getD]

theorem difference_altBuf_two : difference altBuf 4 2 = 0 := by
  unfold difference altBuf altBufList
  norm_num [Finset.sum_range_succ, List.getD]

theorem difference_altBuf_three : difference altBuf 4 3 = 16 := by
  unfold difference altBuf altBufList
  norm_num [Finset.sum_range_succ, List.getD]

theorem yinCmnd_altBuf_one : yinCmnd altBuf 4 1 = 1 := cumulativeMean_one _

theorem yinCmnd_altBuf_two : yinCmnd altBuf 4 2 = 0 := by
  unfold yinCmnd cumulativeMean
  rw [if_neg (by norm_num : ¬ (2 : Nat) = 0)]
  have hrs : runningSum (difference altBuf 4) 2 = 16 := by
    unfold runningSum
    rw [show Finset.Icc 1 2 = {1, 2} from rfl]
    rw [Finset.sum_insert (by norm_num), Finset.sum_singleton,
      difference_altBuf_one, difference_altBuf_two]
    norm_num
  rw [hrs, if_neg (by norm_num : ¬ (16 : ℚ) = 0), difference_altBuf_two]
  norm_num

theorem yinCmnd_altBuf_three : yinCmnd altBuf 4 3 = 3/2 := by
  unfold yinCmnd cumulativeMean
  rw [if_neg (by norm_num : ¬ (3 : Nat) = 0)]
  have hrs : runningSum (difference altBuf 4) 3 = 32 := by
    unfold runningSum
    rw [show Finset.Icc 1 3 = {1, 2, 3} from rfl]
    rw [Finset.sum_insert (by norm_num), Finset.sum_insert (by norm_num),
      Finset.sum_singleton, difference_altBuf_one, difference_altBuf_two,
      difference_altBuf_three]
    norm_num
  rw [hrs, if_neg (by norm_num : ¬ (32 : ℚ) = 0), difference_altBuf_three]
  norm_num

theorem absoluteThreshold_altBuf :
    absoluteThreshold (yinCmnd altBuf 4) (1/10) 4 = some 2 := by
  unfold absoluteThreshold
  simp only [scanTau]
  rw [if_pos (by norm_num : (2 : Nat) < 4),
    if_pos (by rw [yinCmnd_altBuf_two]; norm_num :
      yinCmnd altBuf 4 2 < (1 : ℚ)/10)]
  have hdesc : descend (yinCmnd altBuf 4) 4 2 (4 - (2 + 1)) = 2 := by
    simp only [show (4 : Nat) - (2 + 1) = 1 from rfl, descend]
    rw [if_neg]
    intro hc
    rw [yinCmnd_altBuf_two, yinCmnd_altBuf_three] at hc
    exact absurd hc.2 (by norm_num)
  rw [hdesc]

theorem parabolicInterpolation_altBuf :
    parabolicInterpolation (yinCmnd altBuf 4) 4 2 = 19/10 := by
  unfold parabolicInterpolation
  rw [if_neg (by norm_num : ¬ ((2 : Nat) < 1 ∨ (4 : Nat) ≤ 2 + 1))]
  norm_num [yinCmnd_altBuf_one, yinCmnd_altBuf_two, yinCmnd_altBuf_three]

theorem yinGetPitch_altBuf :
    yinGetPitch 880 (1/10) (3/20) 4 altBuf = some ⟨8800/19, 1⟩ := by
  unfold yinGetPitch
  rw [absoluteThreshold_altBuf]
  simp only [parabolicInterpolation_altBuf, yinCmnd_altBuf_two]
  rw [if_neg (by norm_num : ¬ (1 : ℚ) - 0 < 3/20)]
  norm_num

/-- Witness for C3 on the eight-sample alternating frame at sample rate
880: the detector returns frequency 8800/19 (about 463 Hz, after the
parabolic refinement of the lag 2 to 19/10) with probability 1, and the
frequency is strictly positive. -/
theorem c3_frequency_pos_witness :
    (0 : ℚ) < 880 ∧ (1 : ℚ)/10 ≤ 1 ∧
    yinGetPitch 880 (1/10) (3/20) 4 altBuf = some ⟨8800/19, 1⟩ ∧
    (0 : ℚ) < (8800/19 : ℚ) := by
  refine ⟨by norm_num, by norm_num, yinGetPitch_altBuf, ?_⟩
  exact (c3_frequency_pos 880 (1/10) (3/20) 4 altBuf ⟨8800/19, 1⟩
    (by norm_num) (by norm_num) yinGetPitch_altBuf).1

theorem yin_some_prob (sampleRate threshold probabilityThreshold : ℚ) (H : Nat)
    (buf : Nat → ℚ) (est : PitchEstimate)
    (h : yinGetPitch sampleRate threshold probabilityThreshold H buf = some est) :
    probabilityThreshold ≤ est.probability := by
  obtain ⟨tau, _, _, hprob, hnl⟩ :=
    yin_some_inv sampleRate threshold probabilityThreshold H buf est h
  rw [hprob]
  exact not_lt.mp hnl

theorem trackerGetPitch_est (cfg : TrackerConfig) (s : AgcState) (buf : List ℚ)
    (now : ℝ) (est : PitchEstimate)
    (hgate : ¬ (analyseAmplitude buf).1 < cfg.rmsThreshold)
    (hy : yinGetPitch cfg.sampleRate cfg.yinThreshold cfg.probabilityThreshold
        (buf.length / 2) (fun i => buf.getD i 0) = some est) :
    (trackerGetPitch cfg s buf now).1.frequency = some est.frequency ∧
    (trackerGetPitch cfg s buf now).1.probability = est.probability := by
  unfold trackerGetPitch
  simp only
  rw [if_neg hgate, hy]
  exact ⟨rfl, rfl⟩

/-- C5: if the confidence 1 - cmnd tau at the integer lag found by the
threshold search is below probabilityThreshold, getPitch returns none (a
hard rejection); consequently every tracker reading carrying a non-null
frequency has probability at least the configured probability
threshold. -/
theorem c5_probability_gate :
    (∀ (sampleRate threshold probabilityThreshold : ℚ) (H : Nat)
        (buf : Nat → ℚ) (tau : Nat),
        absoluteThreshold (yinCmnd buf H) threshold H = some tau →
        1 - yinCmnd buf H tau < probabilityThreshold →
        yinGetPitch sampleRate threshold probabilityThreshold H buf = none) ∧
    (∀ (cfg : TrackerConfig) (agcState : AgcState) (buf : List ℚ) (now : ℝ)
        (f : ℚ),
        (trackerGetPitch cfg agcState buf now).1.frequency = some f →
        cfg.probabilityThreshold ≤
          (trackerGetPitch cfg agcState buf now).1.probability) := by
  constructor
  · intro sampleRate threshold probabilityThreshold H buf tau habs hp
    unfold yinGetPitch
    rw [habs]
    simp only
    rw [if_pos hp]
  · intro cfg agcState buf now f hf
    have hf2 := hf
    unfold trackerGetPitch at hf2
    simp only at hf2
    split at hf2
    next hgate => exact absurd hf2 (by simp)
    next hgate =>
      split at hf2
      next hy => exact absurd hf2 (by simp)
      next est hy =>
        have hest := trackerGetPitch_est cfg agcState buf now est hgate hy
        rw [hest.2]
        exact yin_some_prob cfg.sampleRate cfg.yinThreshold
          cfg.probabilityThreshold (buf.length / 2) (fun i => buf.getD i 0) est hy

theorem ampScan_altBufList : ampScan altBufList = (8, 1) := by
  unfold ampScan altBufList
  norm_num [List.foldl_cons, List.foldl_nil, abs, max_def]

theorem analyseAmplitude_altBufList : analyseAmplitude altBufList = (1, 1) := by
  unfold analyseAmplitude
  rw [ampScan_altBufList]
  have hlen : (altBufList.length : ℝ) = 8 := by
    unfold altBufList
    norm_num
  rw [hlen]
  have h8 : (((8 : ℚ) : ℝ)) / 8 = 1 := by norm_num
  rw [h8, Real.sqrt_one]

/-- Witness for C5 on the eight-sample alternating frame: the tracker
reading carries the non-null frequency 8800/19 and its probability 1 is
at least the configured threshold 3/20. -/
theorem c5_probability_gate_witness :
    (trackerGetPitch trackerWitnessConfig agcInit altBufList 0).1.frequency =
      some (8800/19) ∧
    trackerWitnessConfig.probabilityThreshold ≤
      (trackerGetPitch trackerWitnessConfig agcInit altBufList 0).1.probability := by
  have hgate : ¬ (analyseAmplitude altBufList).1 < trackerWitnessConfig.rmsThreshold := by
    rw [analyseAmplitude_altBufList]
    show ¬ (1 : ℝ) < (1/100 : ℝ)
    norm_num
  have hy : yinGetPitch trackerWitnessConfig.sampleRate
      trackerWitnessConfig.yinThreshold trackerWitnessConfig.probabilityThreshold
      (altBufList.length / 2) (fun i => altBufList.getD i 0) =
      some ⟨8800/19, 1⟩ := by
    show yinGetPitch 880 (1/10) (3/20) 4 altBuf = some ⟨8800/19, 1⟩
    exact yinGetPitch_altBuf
  have hest := trackerGetPitch_est trackerWitnessConfig agcInit altBufList 0
    ⟨8800/19, 1⟩ hgate hy
  exact ⟨hest.1, c5_probability_gate.2 trackerWitnessConfig agcInit altBufList 0
    (8800/19) hest.1⟩

/-- C8: an update call with a non-finite rms measurement leaves the
controller state (smoothedRms, currentGain, lastUpdateTime) completely
unchanged and returns the last known smoothed RMS (0 while still unset,
per the JS nullish coalescing) and the current gain. -/
theorem c8_nonfinite_noop (cfg : AgcConfig) (s : AgcState) (now : ℝ) :
    agcUpdate cfg s none now = (s, ⟨s.smoothedRms.getD 0, s.currentGain⟩) := rfl

theorem agcClamp_mem (cfg : AgcConfig) (value : ℝ)
    (h : cfg.minGain ≤ cfg.maxGain) :
    cfg.minGain ≤ agcClamp cfg value ∧ agcClamp cfg value ≤ cfg.maxGain := by
  unfold agcClamp
  exact ⟨le_min h (le_max_left _ _), min_le_left _ _⟩

/-- C9: every update call with a finite rms measurement stores and
returns a gain inside the configured interval, provided
minGain ≤ maxGain. -/
theorem c9_gain_clamped (cfg : AgcConfig) (s : AgcState) (r now : ℝ)
    (h : cfg.minGain ≤ cfg.maxGain) :
    cfg.minGain ≤ (agcUpdate cfg s (some r) now).2.gain ∧
    (agcUpdate cfg s (some r) now).2.gain ≤ cfg.maxGain ∧
    (agcUpdate cfg s (some r) now).1.currentGain =
      (agcUpdate cfg s (some r) now).2.gain := by
  exact ⟨(agcClamp_mem cfg _ h).1, (agcClamp_mem cfg _ h).2, rfl⟩

/-- Witness for C9 with the source AGC options on a silent measurement
from the initial state: the stored and returned gain is clamped into
[0.5, 200]. -/
theorem c9_gain_clamped_witness :
    agcDefaults.minGain ≤ agcDefaults.maxGain ∧
    agcDefaults.minGain ≤ (agcUpdate agcDefaults agcInit (some 0) 0).2.gain ∧
    (agcUpdate agcDefaults agcInit (some 0) 0).2.gain ≤ agcDefaults.maxGain ∧
    (agcUpdate agcDefaults agcInit (some 0) 0).1.currentGain =
      (agcUpdate agcDefaults agcInit (some 0) 0).2.gain := by
  have hmm : agcDefaults.minGain ≤ agcDefaults.maxGain := by
    show (1/2 : ℝ) ≤ 200
    norm_num
  have h := c9_gain_clamped agcDefaults agcInit 0 0 hmm
  exact ⟨hmm, h.1, h.2.1, h.2.2⟩

theorem ampScan_fst (buf : List ℚ) (init : ℚ × ℚ) :
    (buf.foldl
      (fun acc sample =>
        (acc.1 + sample * sample, if |sample| > acc.2 then |sample| else acc.2))
      init).1 = init.1 + (buf.map (fun s => s * s)).sum := by
  induction buf generalizing init with
  | nil => simp
  | cons a l ih =>
    simp only [List.foldl_cons, List.map_cons, List.sum_cons]
    rw [ih]
    ring

theorem ampScan_snd_bounds (buf : List ℚ) (init : ℚ × ℚ) :
    init.2 ≤ (buf.foldl
      (fun acc sample =>
        (acc.1 + sample * sample, if |sample| > acc.2 then |sample| else acc.2))
      init).2 ∧
    ∀ s ∈ buf, |s| ≤ (buf.foldl
      (fun acc sample =>
        (acc.1 + sample * sample, if |sample| > acc.2 then |sample| else acc.2))
      init).2 := by
  induction buf generalizing init with
  | nil => exact ⟨le_refl _, by simp⟩
  | cons a l ih =>
    simp only [List.foldl_cons, List.mem_cons]
    have step : (init.1 + a * a, if |a| > init.2 then |a| else init.2).2 =
        if |a| > init.2 then |a| else init.2 := rfl
    obtain ⟨h1, h2⟩ := ih (init.1 + a * a, if |a| > init.2 then |a| else init.2)
    constructor
    · refine le_trans ?_ h1
      rw [step]
      split_ifs with hc
      · exact le_of_lt hc
      · exact le_refl _
    · intro s hs
      rcases hs with hs | hs
      · subst hs
        refine le_trans ?_ h1
        rw [step]
        split_ifs with hc
        · exact le_refl _
        · exact le_of_not_lt hc
      · exact h2 s hs

theorem sum_sq_le_length_mul_sq (buf : List ℚ) (p : ℚ)
    (hp : ∀ s ∈ buf, |s| ≤ p) :
    (buf.map (fun s => s * s)).sum ≤ (buf.length : ℚ) * (p * p) := by
  induction buf with
  | nil => simp
  | cons a l ih =>
    simp only [List.map_cons, List.sum_cons, List.length_cons]
    have ha : |a| ≤ p := hp a (List.mem_cons_self a l)
    have ha2 : a * a ≤ p * p := by
      nlinarith [abs_nonneg a, le_abs_self a, neg_abs_le a]
    have hl := ih (fun s hs => hp s (List.mem_cons_of_mem a hs))
    push_cast
    nlinarith

theorem ampScan_fst_eq (buf : List ℚ) :
    (ampScan buf).1 = (buf.map (fun s => s * s)).sum := by
  unfold ampScan
  rw [ampScan_fst]
  exact zero_add _

theorem ampScan_peak_nonneg (buf : List ℚ) : 0 ≤ (ampScan buf).2 := by
  unfold ampScan
  simpa using (ampScan_snd_bounds buf (0, 0)).1

theorem ampScan_peak_bound (buf : List ℚ) :
    ∀ s ∈ buf, |s| ≤ (ampScan buf).2 := by
  unfold ampScan
  exact (ampScan_snd_bounds buf (0, 0)).2

/-- C10: for every sample frame the analyser output satisfies
0 ≤ rms ≤ peak: the root mean square never exceeds the peak absolute
magnitude, and both are non-negative (peak non-negativity is the third
conjunct, over the rationals). -/
theorem c10_rms_le_peak (buf : List ℚ) (h : 0 < buf.length) :
    0 ≤ (analyseAmplitude buf).1 ∧
    (analyseAmplitude buf).1 ≤ ((analyseAmplitude buf).2 : ℝ) ∧
    0 ≤ (analyseAmplitude buf).2 := by
  have hpnn : (0 : ℚ) ≤ (ampScan buf).2 := ampScan_peak_nonneg buf
  refine ⟨Real.sqrt_nonneg _, ?_, hpnn⟩
  unfold analyseAmplitude
  simp only
  have hsum : (ampScan buf).1 ≤
      (buf.length : ℚ) * ((ampScan buf).2 * (ampScan buf).2) := by
    rw [ampScan_fst_eq]
    exact sum_sq_le_length_mul_sq buf (ampScan buf).2 (ampScan_peak_bound buf)
  have hlen : (0 : ℝ) < (buf.length : ℝ) := by exact_mod_cast h
  have hdiv : ((ampScan buf).1 : ℝ) / (buf.length : ℝ) ≤
      ((ampScan buf).2 : ℝ) * ((ampScan buf).2 : ℝ) := by
    rw [div_le_iff₀ hlen]
    calc ((ampScan buf).1 : ℝ)
        ≤ (buf.length : ℝ) * (((ampScan buf).2 : ℝ) * ((ampScan buf).2 : ℝ)) := by
          exact_mod_cast hsum
      _ = ((ampScan buf).2 : ℝ) * ((ampScan buf).2 : ℝ) * (buf.length : ℝ) := by
          ring
  calc Real.sqrt (((ampScan buf).1 : ℝ) / (buf.length : ℝ))
      ≤ Real.sqrt (((ampScan buf).2 : ℝ) * ((ampScan buf).2 : ℝ)) :=
        Real.sqrt_le_sqrt hdiv
    _ = ((ampScan buf).2 : ℝ) := Real.sqrt_mul_self (by exact_mod_cast hpnn)

/-- Witness for C10 on the two-sample frame [1/2, -4/5]: rms is
sqrt(89/200), peak is 4/5, and 0 ≤ rms ≤ peak holds. -/
theorem c10_rms_le_peak_witness :
    0 < ([1/2, -4/5] : List ℚ).length ∧
    0 ≤ (analyseAmplitude [1/2, -4/5]).1 ∧
    (analyseAmplitude [1/2, -4/5]).1 ≤ ((analyseAmplitude [1/2, -4/5]).2 : ℝ) := by
  have h := c10_rms_le_peak [1/2, -4/5] (by norm_num)
  exact ⟨by norm_num, h.1, h.2.1⟩

theorem ampScan_replicate_zero (n : Nat) : ampScan (List.replicate n 0) = (0, 0) := by
  unfold ampScan
  induction n with
  | zero => rfl
  | succ n ih =>
    rw [List.replicate_succ, List.foldl_cons]
    simpa using ih

theorem analyseAmplitude_replicate_zero (n : Nat) :
    analyseAmplitude (List.replicate n 0) = (0, 0) := by
  unfold analyseAmplitude
  rw [ampScan_replicate_zero]
  simp

/-- C7: on an all-zero frame of positive length the analyser returns
rms 0 and peak 0, and (with a positive rms threshold) the engine returns
the silence-gate reading with null frequency and probability 0 without
invoking the estimator. -/
theorem c7_silent_gate (cfg : TrackerConfig) (agcState : AgcState) (now : ℝ)
    (n : Nat) (hn : 0 < n) (hthr : 0 < cfg.rmsThreshold) :
    analyseAmplitude (List.replicate n 0) = (0, 0) ∧
    (trackerGetPitch cfg agcState (List.replicate n 0) now).1.frequency = none ∧
    (trackerGetPitch cfg agcState (List.replicate n 0) now).1.probability = 0 ∧
    (trackerGetPitch cfg agcState (List.replicate n 0) now).1.rms = 0 ∧
    (trackerGetPitch cfg agcState (List.replicate n 0) now).1.peak = 0 ∧
    (trackerGetPitch cfg agcState (List.replicate n 0) now).2.2 = false := by
  have hamp := analyseAmplitude_replicate_zero n
  have hgate : (analyseAmplitude (List.replicate n 0)).1 < cfg.rmsThreshold := by
    rw [hamp]
    exact hthr
  refine ⟨hamp, ?_⟩
  unfold trackerGetPitch
  simp only
  rw [if_pos hgate]
  refine ⟨rfl, rfl, ?_, ?_, rfl⟩
  · show (analyseAmplitude (List.replicate n 0)).1 = 0
    rw [hamp]
  · show (analyseAmplitude (List.replicate n 0)).2 = 0
    rw [hamp]

/-- Witness for C7 on a four-sample silent frame with the source default
thresholds. -/
theorem c7_silent_gate_witness :
    0 < 4 ∧ (0 : ℝ) < trackerWitnessConfig.rmsThreshold ∧
    (trackerGetPitch trackerWitnessConfig agcInit (List.replicate 4 0) 0).1.frequency
      = none ∧
    (trackerGetPitch trackerWitnessConfig agcInit (List.replicate 4 0) 0).2.2
      = false := by
  have hthr : (0 : ℝ) < trackerWitnessConfig.rmsThreshold := by
    show (0 : ℝ) < 1/100
    norm_num
  have h := c7_silent_gate trackerWitnessConfig agcInit 0 4 (by norm_num) hthr
  exact ⟨by norm_num, hthr, h.2.1, h.2.2.2.2.2⟩

theorem tmod_twelve_lb (m : ℤ) : -12 < m.tmod 12 := by
  rcases le_or_lt 0 m with h | h
  · have := Int.tmod_nonneg 12 h
    omega
  · have hneg : (-m).tmod 12 = -(m.tmod 12) := by
      simp only [Int.tmod_def, Int.neg_tdiv]
      ring
    have h3 : (-m).tmod 12 < 12 := Int.tmod_lt_of_pos (-m) (by norm_num)
    omega

theorem specNoteIndexFormula_eq_emod (m : ℤ) :
    specNoteIndexFormula m = m % 12 := by
  unfold specNoteIndexFormula
  have hlb := tmod_twelve_lb m
  have hub : m.tmod 12 < 12 := Int.tmod_lt_of_pos m (by norm_num)
  have heq : m.tmod 12 + 12 * m.tdiv 12 = m := Int.tmod_add_tdiv m 12
  rw [Int.tmod_eq_emod (by omega) (by norm_num)]
  omega

theorem noteIndexShift_eq_emod (m : ℤ) (h : -1200 ≤ m) :
    (m + 1200).tmod 12 = m % 12 := by
  rw [Int.tmod_eq_emod (by omega) (by norm_num)]
  omega

/-- C4 (amended): for every strictly positive input frequency whose
nearest MIDI number is at least -1200 (true in particular for every
frequency the stabilizer can pass, and for every frequency above
2 to the power -100 Hz), the note index (nearestMidi + 1200) % 12
computed by the source agrees with the specification formula
((nearestMidi % 12) + 12) % 12 and is a valid non-negative index into the
12-entry chromatic name table; the mapper returns a note datum carrying
exactly these values.  (For frequencies so small that nearestMidi drops
below -1200 the two formulas differ and the source index goes negative.) -/
theorem c4_noteIndex (f : ℝ) (hf : 0 < f) (hm : -1200 ≤ nearestMidi f) :
    noteIndex f = specNoteIndexFormula (nearestMidi f) ∧
    0 ≤ noteIndex f ∧ noteIndex f < 12 ∧
    noteIndex f < (NOTE_NAMES.length : ℤ) ∧
    ∃ nd, frequencyToNoteData f = some nd ∧
      nd.nearestMidi = nearestMidi f ∧ nd.noteIndex = noteIndex f := by
  have h1 : noteIndex f = nearestMidi f % 12 := by
    unfold noteIndex
    exact noteIndexShift_eq_emod _ hm
  have hnn : 0 ≤ nearestMidi f % 12 :=
    Int.emod_nonneg _ (by norm_num)
  have hlt : nearestMidi f % 12 < 12 :=
    Int.emod_lt_of_pos _ (by norm_num)
  have hlen : (NOTE_NAMES.length : ℤ) = 12 := rfl
  refine ⟨?_, ?_, ?_, ?_, ?_⟩
  · rw [h1, specNoteIndexFormula_eq_emod]
  · rw [h1]; exact hnn
  · rw [h1]; exact hlt
  · rw [h1, hlen]; exact hlt
  · unfold frequencyToNoteData
    rw [if_neg (not_le.mpr hf)]
    exact ⟨_, rfl, rfl, rfl⟩

theorem nearestMidi_440 : nearestMidi 440 = 69 := by
  unfold nearestMidi midiOf
  rw [div_self (by norm_num : (440 : ℝ) ≠ 0), Real.logb_one]
  rw [show (69 : ℝ) + 12 * 0 = ((69 : ℤ) : ℝ) by norm_num, round_intCast]

/-- Witness for C4 at 440 Hz: the nearest MIDI number is 69, both index
formulas give 9 (the entry A of the name table), and the index is
non-negative. -/
theorem c4_noteIndex_witness :
    (0 : ℝ) < 440 ∧ -1200 ≤ nearestMidi 440 ∧
    noteIndex 440 = specNoteIndexFormula (nearestMidi 440) ∧
    0 ≤ noteIndex 440 ∧ noteIndex 440 = 9 := by
  have hnm : nearestMidi 440 = 69 := nearestMidi_440
  have h := c4_noteIndex 440 (by norm_num) (by rw [hnm]; norm_num)
  refine ⟨by norm_num, by rw [hnm]; norm_num, h.1, h.2.1, ?_⟩
  unfold noteIndex
  rw [hnm]
  decide

/-- Counterexample to C4 as stated: at the (strictly positive) frequency
440 * 2 ^ (-1270/12) the nearest MIDI number is -1201, the source index
(nearestMidi + 1200) % 12 with the JS truncated remainder evaluates
to -1 (a negative, invalid table index), while the formula
((nearestMidi % 12) + 12) % 12 claimed by the specification evaluates
to 11. -/
theorem c4_counterexample :
    (0 : ℝ) < 440 * (2 : ℝ) ^ ((-1270 : ℝ)/12) ∧
    nearestMidi (440 * (2 : ℝ) ^ ((-1270 : ℝ)/12)) = -1201 ∧
    noteIndex (440 * (2 : ℝ) ^ ((-1270 : ℝ)/12)) = -1 ∧
    specNoteIndexFormula (nearestMidi (440 * (2 : ℝ) ^ ((-1270 : ℝ)/12))) = 11 ∧
    ¬ (0 ≤ noteIndex (440 * (2 : ℝ) ^ ((-1270 : ℝ)/12))) := by
  have hpos : (0 : ℝ) < 440 * (2 : ℝ) ^ ((-1270 : ℝ)/12) :=
    mul_pos (by norm_num) (Real.rpow_pos_of_pos (by norm_num) _)
  have hmid : midiOf (440 * (2 : ℝ) ^ ((-1270 : ℝ)/12)) = ((-1201 : ℤ) : ℝ) := by
    unfold midiOf
    rw [mul_div_cancel_left₀ _ (by norm_num : (440 : ℝ) ≠ 0)]
    rw [Real.logb_rpow (by norm_num) (by norm_num)]
    norm_num
  have hnm : nearestMidi (440 * (2 : ℝ) ^ ((-1270 : ℝ)/12)) = -1201 := by
    unfold nearestMidi
    rw [hmid, round_intCast]
  refine ⟨hpos, hnm, ?_, ?_, ?_⟩
  · unfold noteIndex
    rw [hnm]
    decide
  · rw [hnm]
    unfold specNoteIndexFormula
    decide
  · unfold noteIndex
    rw [hnm]
    decide
